import Mathlib

/-!
Verification of the pyctools numeric kernels against their specification.

The Cython kernels are shallowly embedded: `float32` sample arithmetic is
modelled exactly over `ℚ`, memoryview lines are functions `ℕ → ℚ` together
with explicit lengths (mirroring the `shape` fields carried by the views),
frames are `ℕ → ℕ → ℕ → ℚ` with explicit dimensions, and C `int` index
arithmetic is modelled over `ℤ`.  Cython compiles `//` and `%` on C
integers with Python (floor) semantics, which coincides with Lean's `Int`
division and modulus for the positive divisors used here.  Unsigned loop
counters that are provably nonnegative in the verified regime are read
through `Int.toNat`.
-/

namespace Pyctools

/-- Tap index of the polyphase filter, as in the source comment
`filter_pos = (out_pos * down) - (in_pos * up)` plus the centring offset
`(xlen_fil - 1) // 2` used for a symmetric filter. -/
def tapIdx (x_down x_up : ℤ) (xlen_fil : ℕ) (x_out x_in : ℕ) : ℤ :=
  ((x_out : ℤ) * x_down) - ((x_in : ℤ) * x_up) + (((xlen_fil : ℤ) - 1) / 2)

/-- Inner accumulation loop shared by the `resize_line` kernels:
`for x_in in range(x_in_0, x_in_1): acc += in_line[x_in] * norm_filter[x_fil];
x_fil -= x_up`, iterated `n` times starting at input index `x_in` and filter
index `x_fil` (an `unsigned int` in the source, modelled via `Int.toNat`). -/
def accLoop (in_line norm_filter : ℕ → ℚ) (x_up : ℤ) :
    ℕ → ℕ → ℤ → ℚ → ℚ
  | 0, _, _, acc => acc
  | n + 1, x_in, x_fil, acc =>
      accLoop in_line norm_filter x_up n (x_in + 1) (x_fil - x_up)
        (acc + in_line x_in * norm_filter x_fil.toNat)

namespace Resizecore2014

/-- `resize_line` from resizecore.pyx (2014 revision): one pass of the 1-D
polyphase resampler over a line.  Lines are functions with explicit lengths;
the returned function is the updated `out_line`. -/
def resize_line (out_line in_line norm_filter : ℕ → ℚ)
    (xlen_in xlen_out xlen_fil : ℕ) (x_up x_down : ℤ) : ℕ → ℚ :=
  fun x_out =>
    if x_out < xlen_out then
      let x_fil_off : ℤ := ((xlen_fil : ℤ) - 1) / 2
      let x_in_1 : ℤ :=
        min ((((x_out : ℤ) * x_down) + x_up + x_fil_off) / x_up) (xlen_in : ℤ)
      let x_in_0 : ℤ :=
        max ((((x_out : ℤ) * x_down) + (x_up - 1) -
              (((xlen_fil : ℤ) - 1) - x_fil_off)) / x_up) 0
      let x_fil_0 : ℤ := (((x_out : ℤ) * x_down) - (x_in_0 * x_up)) + x_fil_off
      accLoop in_line norm_filter x_up (x_in_1 - x_in_0).toNat x_in_0.toNat
        x_fil_0 (out_line x_out)
    else out_line x_out

end Resizecore2014

/-- A 3-axis `float32` array `(row, column, component)` with its shape, as
handed to the current resizecore.pyx kernels. -/
structure QFrame where
  ylen : ℕ
  xlen : ℕ
  comps : ℕ
  data : ℕ → ℕ → ℕ → ℚ

namespace Resizecore

/-- `resize_line` from resizecore.pyx (current revision): lines carry a
component axis; component `c` is filtered with coefficient plane
`c % filters`.  The window arithmetic is identical to the 2014 kernel,
applied to the component-`c` slices. -/
def resize_line (out_line in_line norm_filter : ℕ → ℕ → ℚ)
    (xlen_in xlen_out xlen_fil comps filters : ℕ) (x_up x_down : ℤ) :
    ℕ → ℕ → ℚ :=
  fun x_out c =>
    if x_out < xlen_out ∧ c < comps then
      let x_fil_off : ℤ := ((xlen_fil : ℤ) - 1) / 2
      let x_in_1 : ℤ :=
        min ((((x_out : ℤ) * x_down) + x_up + x_fil_off) / x_up) (xlen_in : ℤ)
      let x_in_0 : ℤ :=
        max ((((x_out : ℤ) * x_down) + (x_up - 1) -
              (((xlen_fil : ℤ) - 1) - x_fil_off)) / x_up) 0
      let x_fil_0 : ℤ := (((x_out : ℤ) * x_down) - (x_in_0 * x_up)) + x_fil_off
      accLoop (fun x_in => in_line x_in c) (fun x_fil => norm_filter x_fil (c % filters))
        x_up (x_in_1 - x_in_0).toNat x_in_0.toNat x_fil_0 (out_line x_out c)
    else out_line x_out c

/-- `filter_line` from resizecore.pyx: horizontal filtering without resizing
(the `x_up = x_down = 1` fast path); the filter index decrements by 1. -/
def filter_line (out_line in_line norm_filter : ℕ → ℕ → ℚ)
    (xlen_in xlen_out xlen_fil comps filters : ℕ) (x_up x_down : ℤ) :
    ℕ → ℕ → ℚ :=
  fun x_out c =>
    if x_out < xlen_out ∧ c < comps then
      let x_fil_off : ℤ := ((xlen_fil : ℤ) - 1) / 2
      let x_in_1 : ℤ := min ((x_out : ℤ) + 1 + x_fil_off) (xlen_in : ℤ)
      let x_in_0 : ℤ := max ((x_out : ℤ) - (((xlen_fil : ℤ) - 1) - x_fil_off)) 0
      let x_fil_0 : ℤ := ((x_out : ℤ) - x_in_0) + x_fil_off
      accLoop (fun x_in => in_line x_in c) (fun x_fil => norm_filter x_fil (c % filters))
        1 (x_in_1 - x_in_0).toNat x_in_0.toNat x_fil_0 (out_line x_out c)
    else out_line x_out c

/-- `scale_line` from resizecore.pyx: pure vertical filter (single horizontal
coefficient); zero coefficients are skipped. -/
def scale_line (out_line in_line norm_filter : ℕ → ℕ → ℚ)
    (xlen_in xlen_out xlen_fil comps filters : ℕ) (x_up x_down : ℤ) :
    ℕ → ℕ → ℚ :=
  fun x c =>
    if x < xlen_out ∧ c < comps then
      let coef := norm_filter 0 (c % filters)
      if coef ≠ 0 then out_line x c + in_line x c * coef else out_line x c
    else out_line x c

/-- Vertical loop body of `resize_frame_core`:
`for y_in in range(y_in_0, y_in_1): interp(out_frame[y_out], in_frame[y_in],
norm_filter[y_fil], ...); y_fil -= y_up`, threading the output line. -/
def rowLoop (in_frame norm_filter : ℕ → ℕ → ℕ → ℚ)
    (interp : (ℕ → ℕ → ℚ) → (ℕ → ℕ → ℚ) → (ℕ → ℕ → ℚ) → (ℕ → ℕ → ℚ))
    (y_up : ℤ) : ℕ → ℕ → ℤ → (ℕ → ℕ → ℚ) → (ℕ → ℕ → ℚ)
  | 0, _, _, line => line
  | n + 1, y_in, y_fil, line =>
      rowLoop in_frame norm_filter interp y_up n (y_in + 1) (y_fil - y_up)
        (interp line (in_frame y_in) (norm_filter y_fil.toNat))

/-- `resize_frame_core` from resizecore.pyx: selects the line kernel
(`resize_line` in general, `scale_line` or `filter_line` when
`x_up = x_down = 1`), then filters each output row from its vertical
polyphase window of input rows. -/
def resize_frame_core (out_frame in_frame norm_filter : QFrame)
    (x_up x_down y_up y_down : ℤ) : QFrame :=
  let ylen_in := in_frame.ylen
  let ylen_out := out_frame.ylen
  let xlen_fil := norm_filter.xlen
  let ylen_fil := norm_filter.ylen
  let interp : (ℕ → ℕ → ℚ) → (ℕ → ℕ → ℚ) → (ℕ → ℕ → ℚ) → (ℕ → ℕ → ℚ) :=
    if x_up ≠ 1 ∨ x_down ≠ 1 then
      fun out_line in_line fil_line =>
        resize_line out_line in_line fil_line in_frame.xlen out_frame.xlen
          xlen_fil out_frame.comps norm_filter.comps x_up x_down
    else if xlen_fil = 1 then
      fun out_line in_line fil_line =>
        scale_line out_line in_line fil_line in_frame.xlen out_frame.xlen
          xlen_fil out_frame.comps norm_filter.comps x_up x_down
    else
      fun out_line in_line fil_line =>
        filter_line out_line in_line fil_line in_frame.xlen out_frame.xlen
          xlen_fil out_frame.comps norm_filter.comps x_up x_down
  { ylen := out_frame.ylen, xlen := out_frame.xlen, comps := out_frame.comps,
    data := fun y_out x c =>
      if y_out < ylen_out then
        let y_fil_off : ℤ := ((ylen_fil : ℤ) - 1) / 2
        let y_in_1 : ℤ :=
          min ((((y_out : ℤ) * y_down) + y_up + y_fil_off) / y_up) (ylen_in : ℤ)
        let y_in_0 : ℤ :=
          max ((((y_out : ℤ) * y_down) + (y_up - 1) -
                (((ylen_fil : ℤ) - 1) - y_fil_off)) / y_up) 0
        let y_fil : ℤ := (((y_out : ℤ) * y_down) - (y_in_0 * y_up)) + y_fil_off
        rowLoop in_frame.data norm_filter.data interp y_up
          (y_in_1 - y_in_0).toNat y_in_0.toNat y_fil (out_frame.data y_out) x c
      else out_frame.data y_out x c }

/-- Specification variant of `resize_frame_core` for the fast-path
refinement claim: no dispatch — every line is processed by the general
`resize_line` kernel. -/
def resize_frame_core_general (out_frame in_frame norm_filter : QFrame)
    (x_up x_down y_up y_down : ℤ) : QFrame :=
  let ylen_in := in_frame.ylen
  let ylen_out := out_frame.ylen
  let xlen_fil := norm_filter.xlen
  let ylen_fil := norm_filter.ylen
  let interp : (ℕ → ℕ → ℚ) → (ℕ → ℕ → ℚ) → (ℕ → ℕ → ℚ) → (ℕ → ℕ → ℚ) :=
    fun out_line in_line fil_line =>
      resize_line out_line in_line fil_line in_frame.xlen out_frame.xlen
        xlen_fil out_frame.comps norm_filter.comps x_up x_down
  { ylen := out_frame.ylen, xlen := out_frame.xlen, comps := out_frame.comps,
    data := fun y_out x c =>
      if y_out < ylen_out then
        let y_fil_off : ℤ := ((ylen_fil : ℤ) - 1) / 2
        let y_in_1 : ℤ :=
          min ((((y_out : ℤ) * y_down) + y_up + y_fil_off) / y_up) (ylen_in : ℤ)
        let y_in_0 : ℤ :=
          max ((((y_out : ℤ) * y_down) + (y_up - 1) -
                (((ylen_fil : ℤ) - 1) - y_fil_off)) / y_up) 0
        let y_fil : ℤ := (((y_out : ℤ) * y_down) - (y_in_0 * y_up)) + y_fil_off
        rowLoop in_frame.data norm_filter.data interp y_up
          (y_in_1 - y_in_0).toNat y_in_0.toNat y_fil (out_frame.data y_out) x c
      else out_frame.data y_out x c }

/-- `resize_frame` from resizecore.pyx: allocates the zero-initialised
output of the rounded resized shape and runs `resize_frame_core`. -/
def resize_frame (in_frame norm_filter : QFrame)
    (x_up x_down y_up y_down : ℤ) : QFrame :=
  let xlen_out : ℤ := max ((((in_frame.xlen : ℤ) * x_up) + x_down / 2) / x_down) 1
  let ylen_out : ℤ := max ((((in_frame.ylen : ℤ) * y_up) + y_down / 2) / y_down) 1
  let out_frame : QFrame :=
    { ylen := ylen_out.toNat, xlen := xlen_out.toNat, comps := in_frame.comps,
      data := fun _ _ _ => 0 }
  resize_frame_core out_frame in_frame norm_filter x_up x_down y_up y_down

/-- Extraction of one component plane of a frame as a single-plane frame. -/
def plane (F : QFrame) (c : ℕ) : QFrame :=
  ⟨F.ylen, F.xlen, 1, fun y x _ => F.data y x c⟩

/-- A 0 × 0 single-plane frame. -/
def emptyFrame : QFrame := ⟨0, 0, 1, fun _ _ _ => 0⟩

/-- The 1 × 1 × 1 filter whose only coefficient is 1. -/
def unitFilter : QFrame := ⟨1, 1, 1, fun _ _ _ => 1⟩

/-- A concrete 2 × 2 single-plane frame. -/
def c3Frame : QFrame := ⟨2, 2, 1, fun y x _ => (y : ℚ) + 2 * x⟩

/-- Concrete line data for the `resize_line` closed-form witness. -/
def c1Out : ℕ → ℕ → ℚ := fun x c => (x : ℚ) + c

/-- Concrete input line for the `resize_line` closed-form witness. -/
def c1In : ℕ → ℕ → ℚ := fun x c => (x : ℚ) * (c + 1)

/-- Concrete filter for the `resize_line` closed-form witness. -/
def c1Fil : ℕ → ℕ → ℚ := fun t _ => (t : ℚ) + 1

/-- A concrete 3 × 5 × 2 frame for the shape witness. -/
def c2Frame : QFrame := ⟨3, 5, 2, fun y x c => (y : ℚ) + x + c⟩

/-- A 1 × 3 × 1 filter with more than one horizontal coefficient. -/
def c5Filter : QFrame := ⟨1, 3, 1, fun _ t _ => (t : ℚ) + 1⟩

/-- A concrete 2 × 2 three-plane frame. -/
def c6Frame : QFrame := ⟨2, 2, 3, fun y x c => (y : ℚ) + 2 * x + 4 * c⟩

/-- A concrete 1 × 1 two-plane filter. -/
def c6Filter : QFrame := ⟨1, 1, 2, fun _ _ c => (c : ℚ) + 1⟩

end Resizecore

/-- A 4-axis modulation pattern `(z, y, x, component)` with its shape, as
handed to modulatecore.pyx. -/
structure QCell where
  zlen : ℕ
  ylen : ℕ
  xlen : ℕ
  comps : ℕ
  data : ℕ → ℕ → ℕ → ℕ → ℚ

namespace Modulatecore

/-- `modulate_frame_c` from modulatecore.pyx: writes
`out[y, x, c] = in[y, x, c] * cell[y % ylen, x % xlen, c % cells]` for every
in-range sample of the input frame. -/
def modulate_frame_c (out_frame in_frame cell : QFrame) : QFrame :=
  { out_frame with data := fun y x c =>
      if y < in_frame.ylen ∧ x < in_frame.xlen ∧ c < in_frame.comps then
        in_frame.data y x c *
          cell.data (y % cell.ylen) (x % cell.xlen) (c % cell.comps)
      else out_frame.data y x c }

/-- `modulate_frame` from modulatecore.pyx: allocates a fresh output of the
input's shape (`np.empty`, modelled with zero contents) and modulates with
the temporal cell slice `cell[frame_no % zlen]`. -/
def modulate_frame (in_frame : QFrame) (cell : QCell) (frame_no : ℕ) : QFrame :=
  let k := frame_no % cell.zlen
  let out_frame : QFrame :=
    ⟨in_frame.ylen, in_frame.xlen, in_frame.comps, fun _ _ _ => 0⟩
  modulate_frame_c out_frame in_frame
    ⟨cell.ylen, cell.xlen, cell.comps, cell.data k⟩

/-- A concrete 2 × 2 × 2 × 2 cell. -/
def c8Cell : QCell := ⟨2, 2, 2, 2, fun k j i c => (k : ℚ) + j + i + c + 1⟩

/-- A concrete 3 × 3 × 3 frame. -/
def c8Frame : QFrame := ⟨3, 3, 3, fun y x c => (y : ℚ) * 9 + x * 3 + c⟩

end Modulatecore

namespace Zone

/-- Python-semantics float modulus as compiled by Cython for `%` on C
floats: `a - b * ⌊a / b⌋` (result has the divisor's sign). -/
def qfmod (a b : ℚ) : ℚ := a - b * ⌊a / b⌋

/-- C cast of a float to `int`: truncation toward zero. -/
def c_int (q : ℚ) : ℤ := if 0 ≤ q then ⌊q⌋ else -⌊-q⌋

/-- One row of vertical integral updates in `zone_frame`
(`Ikydy_Iktdt_k0`, `Iky2dy_Ikytdt_ky`, `Ikxydy_Ikxtdt_kx`). -/
def vStep (kxy kyx ky2 phases : ℚ) (s : ℚ × ℚ × ℚ) : ℚ × ℚ × ℚ :=
  (qfmod (s.1 + s.2.1) phases, s.2.1 + ky2, s.2.2 + kxy + kyx)

def vIter (kxy kyx ky2 phases : ℚ) : ℕ → (ℚ × ℚ × ℚ) → ℚ × ℚ × ℚ
  | 0, s => s
  | n + 1, s => vIter kxy kyx ky2 phases n (vStep kxy kyx ky2 phases s)

/-- One column of horizontal integral updates in `zone_frame`
(`Ikxdx_Ikydy_Iktdt_k0`, `Ikx2dx_Ikxydy_Ikxtdt_kx`). -/
def hStep (kx2 phases : ℚ) (s : ℚ × ℚ) : ℚ × ℚ :=
  (qfmod (s.1 + s.2) phases, s.2 + kx2)

def hIter (kx2 phases : ℚ) : ℕ → (ℚ × ℚ) → ℚ × ℚ
  | 0, s => s
  | n + 1, s => hIter kx2 phases n (hStep kx2 phases s)

/-- The phase accumulator indexed into `waveform` at position `(y, x)`:
vertical integrals advanced `y` rows, then horizontal integrals advanced
`x` columns from the row start. -/
def zoneAcc (kx2 kxy kyx ky2 phases Iktdt_k0 Ikytdt_ky Ikxtdt_kx : ℚ)
    (y x : ℕ) : ℚ :=
  let v := vIter kxy kyx ky2 phases y (Iktdt_k0, Ikytdt_ky, Ikxtdt_kx)
  (hIter kx2 phases x (v.1, v.2.2)).1

/-- `zone_frame` from zone.pyx: each output sample is the waveform at the
truncated phase accumulator. -/
def zone_frame (ylen xlen : ℕ) (waveform : ℕ → ℚ) (phases0 : ℕ)
    (kx2 kxy kyx ky2 Iktdt_k0 Ikytdt_ky Ikxtdt_kx : ℚ) : ℕ → ℕ → ℚ :=
  fun y x =>
    if y < ylen ∧ x < xlen then
      waveform (c_int (zoneAcc kx2 kxy kyx ky2 (phases0 : ℚ)
        Iktdt_k0 Ikytdt_ky Ikxtdt_kx y x)).toNat
    else 0

/-- The vertical state invariant: accumulator in `[0, phases)`, both
increments nonnegative. -/
def VInv (phases : ℚ) (s : ℚ × ℚ × ℚ) : Prop :=
  0 ≤ s.1 ∧ s.1 < phases ∧ 0 ≤ s.2.1 ∧ 0 ≤ s.2.2

/-- The horizontal state invariant: accumulator in `[0, phases)`,
increment nonnegative. -/
def HInv (phases : ℚ) (s : ℚ × ℚ) : Prop :=
  0 ≤ s.1 ∧ s.1 < phases ∧ 0 ≤ s.2

end Zone

namespace Interp

end Interp

namespace Runtime

/-- Modelled from the spec: the Connection implementation (the pyctools
core runtime) is not under src/; §3 and §4.2 describe a Connection as an
ordered bounded FIFO queue of Frame references from one producer output
port to one consumer input port. -/
structure Connection (A : Type) where
  capacity : ℕ
  queue : List A

/-- Modelled from the spec (§4.2): `send` appends to the queue when there
is room; on a full queue the call blocks the producing thread, modelled as
`none` (no completed transition). -/
def send {A : Type} (c : Connection A) (f : A) : Option (Connection A) :=
  if c.queue.length < c.capacity then some ⟨c.capacity, c.queue ++ [f]⟩
  else none

/-- Modelled from the spec (§4.2): `receive` blocks until an element is
available (`none` while empty) and returns the oldest one. -/
def receive {A : Type} (c : Connection A) : Option (A × Connection A) :=
  match c.queue with
  | [] => none
  | f :: rest => some (f, ⟨c.capacity, rest⟩)

end Runtime

namespace Gammacorrection

/-- Upward bracket search of `apply_transfer_function`:
`while i + 1 < points - 1 and v > in_val[i+1]: i = i + 1`. -/
def searchUp (in_val : ℕ → ℚ) (points : ℕ) (v : ℚ) (i : ℕ) : ℕ :=
  if h : i + 1 < points - 1 ∧ in_val (i + 1) < v then
    searchUp in_val points v (i + 1)
  else i
termination_by points - i
decreasing_by omega

/-- Downward bracket search of `apply_transfer_function`:
`while i > 0 and v < in_val[i]: i = i - 1`. -/
def searchDown (in_val : ℕ → ℚ) (v : ℚ) : ℕ → ℕ
  | 0 => 0
  | i + 1 => if v < in_val (i + 1) then searchDown in_val v i else i + 1

/-- The bracketing index found for value `v` starting from carried index
`i`: the upward search followed by the downward search. -/
def bracket (in_val : ℕ → ℚ) (points : ℕ) (v : ℚ) (i : ℕ) : ℕ :=
  searchDown in_val v (searchUp in_val points v i)

/-- The linear interpolation (or extrapolation) step of
`apply_transfer_function` at bracket index `i`. -/
def interpolate (in_val out_val : ℕ → ℚ) (i : ℕ) (v : ℚ) : ℚ :=
  let d_in := in_val (i + 1) - in_val i
  let d_out := out_val (i + 1) - out_val i
  if d_in = 0 then out_val i + d_out * (1 / 2)
  else out_val i + d_out * (v - in_val i) / d_in

/-- The per-row sample loop of `apply_transfer_function`: the samples of a
row are visited component-major (`for c: for x:`), the search index `i` is
carried from sample to sample, and each visited sample is overwritten with
its interpolated value.  Reads are of the original row: each cell is read
exactly once, before it is written. -/
def rowApply (in_row : ℕ → ℕ → ℚ) (in_val out_val : ℕ → ℚ) (points : ℕ) :
    List (ℕ × ℕ) → ℕ → (ℕ → ℕ → ℚ) → (ℕ → ℕ → ℚ)
  | [], _, f => f
  | (c, x) :: rest, i, f =>
      let j := bracket in_val points (in_row x c) i
      rowApply in_row in_val out_val points rest j
        (fun x2 c2 => if x2 = x ∧ c2 = c then
          interpolate in_val out_val j (in_row x c) else f x2 c2)

/-- `apply_transfer_function` from the interpolation extension: every row is
processed independently (the search index restarts at 0 per row). -/
def apply_transfer_function (frame : QFrame) (in_val out_val : ℕ → ℚ)
    (points : ℕ) : QFrame :=
  { frame with data := fun y x c =>
      if y < frame.ylen then
        (rowApply (frame.data y) in_val out_val points
          ((List.range frame.comps).flatMap (fun c2 =>
            (List.range frame.xlen).map (fun x2 => (c2, x2)))) 0
          (frame.data y)) x c
      else frame.data y x c }

/-- A concrete 1 × 1 × 1 frame with sample 3/2. -/
def c10Frame : QFrame := ⟨1, 1, 1, fun _ _ _ => 3 / 2⟩

end Gammacorrection

end Pyctools

namespace Pyctools

theorem accLoop_eq_sum (in_line norm_filter : ℕ → ℚ) (x_up : ℤ) :
    ∀ (n x0 : ℕ) (f0 : ℤ) (acc : ℚ),
      accLoop in_line norm_filter x_up n x0 f0 acc =
        acc + ∑ k ∈ Finset.range n,
          in_line (x0 + k) * norm_filter (f0 - (k : ℤ) * x_up).toNat := by
  intro n
  induction n with
  | zero => intro x0 f0 acc; simp [accLoop]
  | succ m ih =>
      intro x0 f0 acc
      rw [accLoop, ih]
      rw [Finset.sum_range_succ' (fun k => in_line (x0 + k) *
        norm_filter (f0 - (k : ℤ) * x_up).toNat)]
      have hs : ∑ k ∈ Finset.range m,
            in_line (x0 + 1 + k) * norm_filter (f0 - x_up - (k : ℤ) * x_up).toNat =
          ∑ k ∈ Finset.range m,
            in_line (x0 + (k + 1)) * norm_filter (f0 - ((k + 1 : ℕ) : ℤ) * x_up).toNat := by
        apply Finset.sum_congr rfl
        intro k _
        have h1 : x0 + 1 + k = x0 + (k + 1) := by omega
        have h2 : f0 - x_up - (k : ℤ) * x_up = f0 - ((k + 1 : ℕ) : ℤ) * x_up := by
          push_cast; ring
        rw [h1, h2]
      rw [hs]
      have h0 : f0 - ((0 : ℕ) : ℤ) * x_up = f0 := by push_cast; ring
      rw [h0, add_assoc]
      congr 1
      rw [add_comm]
      norm_num

/-- Floor division fact: the source computes the exclusive upper input bound
as `(A + x_up) // x_up`, which admits exactly the `x` with `x * x_up ≤ A`. -/
theorem lt_ediv_add_iff (A x_up x : ℤ) (hu : 0 < x_up) :
    x < (A + x_up) / x_up ↔ x * x_up ≤ A := by
  rw [show A + x_up = A + 1 * x_up by ring, Int.add_mul_ediv_right _ _ (ne_of_gt hu)]
  constructor
  · intro h
    exact (Int.le_ediv_iff_mul_le hu).mp (by omega)
  · intro h
    have h2 := (Int.le_ediv_iff_mul_le hu).mpr h
    omega

/-- Floor division fact: the source computes the inclusive lower input bound
as `(B + (x_up - 1)) // x_up` (a ceiling division), which admits exactly the
`x` with `B ≤ x * x_up`. -/
theorem ceil_div_le_iff (B x_up x : ℤ) (hu : 0 < x_up) :
    (B + (x_up - 1)) / x_up ≤ x ↔ B ≤ x * x_up := by
  constructor
  · intro h
    have h2 : (B + (x_up - 1)) / x_up < x + 1 := by omega
    have h3 := (Int.ediv_lt_iff_lt_mul hu).mp h2
    have h4 : (x + 1) * x_up = x * x_up + x_up := by ring
    omega
  · intro h
    have h2 : B + (x_up - 1) < (x + 1) * x_up := by
      have h4 : (x + 1) * x_up = x * x_up + x_up := by ring
      omega
    have h3 := (Int.ediv_lt_iff_lt_mul hu).mpr h2
    omega

/-- The accumulation over the window `[x_in_0, x_in_1)` computed by the
`resize_line` kernels equals the sum over all input positions of the taps
whose index lies inside the filter. -/
theorem resize_window_sum (in_f fil_f : ℕ → ℚ) (xlen_in xlen_fil : ℕ)
    (x_up x_down x_fil_off x_in_0 x_in_1 x_fil_0 : ℤ) (x_out : ℕ) (v : ℚ)
    (hu : 0 < x_up) (hL : 1 ≤ xlen_fil)
    (hoff : x_fil_off = ((xlen_fil : ℤ) - 1) / 2)
    (h1 : x_in_1 = min ((((x_out : ℤ) * x_down) + x_up + x_fil_off) / x_up) (xlen_in : ℤ))
    (h0 : x_in_0 = max ((((x_out : ℤ) * x_down) + (x_up - 1) -
            (((xlen_fil : ℤ) - 1) - x_fil_off)) / x_up) 0)
    (hf : x_fil_0 = (((x_out : ℤ) * x_down) - (x_in_0 * x_up)) + x_fil_off) :
    accLoop in_f fil_f x_up (x_in_1 - x_in_0).toNat x_in_0.toNat x_fil_0 v =
      v + ∑ x_in ∈ Finset.range xlen_in,
        (if 0 ≤ tapIdx x_down x_up xlen_fil x_out x_in ∧
            tapIdx x_down x_up xlen_fil x_out x_in < (xlen_fil : ℤ) then
          in_f x_in * fil_f (tapIdx x_down x_up xlen_fil x_out x_in).toNat else 0) := by
  rw [accLoop_eq_sum]
  congr 1
  have hoff0 : 0 ≤ x_fil_off := hoff ▸ Int.ediv_nonneg (by omega) (by omega)
  set raw1 : ℤ := (((x_out : ℤ) * x_down) + x_up + x_fil_off) / x_up with hraw1def
  set raw0 : ℤ := (((x_out : ℤ) * x_down) + (x_up - 1) -
      (((xlen_fil : ℤ) - 1) - x_fil_off)) / x_up with hraw0def
  have hwin : ∀ x_in : ℕ,
      ((0 ≤ tapIdx x_down x_up xlen_fil x_out x_in ∧
        tapIdx x_down x_up xlen_fil x_out x_in < (xlen_fil : ℤ)) ↔
       (raw0 ≤ (x_in : ℤ) ∧ (x_in : ℤ) < raw1)) := by
    intro x_in
    have hub : ((x_in : ℤ) < raw1 ↔ (x_in : ℤ) * x_up ≤ ((x_out : ℤ) * x_down) + x_fil_off) := by
      rw [hraw1def, show ((x_out : ℤ) * x_down) + x_up + x_fil_off =
        (((x_out : ℤ) * x_down) + x_fil_off) + x_up by ring]
      exact lt_ediv_add_iff _ _ _ hu
    have hlb : (raw0 ≤ (x_in : ℤ) ↔
        (((x_out : ℤ) * x_down) + x_fil_off - ((xlen_fil : ℤ) - 1)) ≤ (x_in : ℤ) * x_up) := by
      rw [hraw0def, show ((x_out : ℤ) * x_down) + (x_up - 1) - (((xlen_fil : ℤ) - 1) - x_fil_off) =
        ((((x_out : ℤ) * x_down) + x_fil_off - ((xlen_fil : ℤ) - 1))) + (x_up - 1) by ring]
      exact ceil_div_le_iff _ _ _ hu
    rw [tapIdx] at *
    constructor
    · intro h
      refine ⟨hlb.mpr ?_, hub.mpr ?_⟩ <;> omega
    · intro h
      have l1 := hlb.mp h.1
      have l2 := hub.mp h.2
      omega
  rw [← Finset.sum_filter]
  have hset : (Finset.range xlen_in).filter (fun x_in =>
        0 ≤ tapIdx x_down x_up xlen_fil x_out x_in ∧
        tapIdx x_down x_up xlen_fil x_out x_in < (xlen_fil : ℤ)) =
      Finset.Ico x_in_0.toNat x_in_1.toNat := by
    ext xi
    rw [Finset.mem_filter, Finset.mem_range, Finset.mem_Ico]
    rw [hwin xi]
    omega
  rw [hset, Finset.sum_Ico_eq_sum_range]
  have hn : x_in_1.toNat - x_in_0.toNat = (x_in_1 - x_in_0).toNat := by omega
  rw [hn]
  apply Finset.sum_congr rfl
  intro k _
  have h00 : (0 : ℤ) ≤ x_in_0 := by rw [h0]; exact le_max_right _ _
  have hcast : ((x_in_0.toNat + k : ℕ) : ℤ) = x_in_0 + (k : ℤ) := by push_cast; omega
  have htap : tapIdx x_down x_up xlen_fil x_out (x_in_0.toNat + k) =
      x_fil_0 - (k : ℤ) * x_up := by
    rw [tapIdx, hcast, hf, ← hoff]
    ring
  rw [htap]

namespace Resizecore2014

end Resizecore2014

namespace Resizecore

/-- Closed form of the current `resize_line`, per component: each output
position accumulates its initial value plus exactly the in-bounds taps. -/
theorem resize_line_eq (out_line in_line norm_filter : ℕ → ℕ → ℚ)
    (xlen_in xlen_out xlen_fil comps filters : ℕ) (x_up x_down : ℤ)
    (x_out c : ℕ) (hu : 0 < x_up) (hd : 0 < x_down) (hL : 1 ≤ xlen_fil)
    (hx : x_out < xlen_out) (hc : c < comps) :
    resize_line out_line in_line norm_filter xlen_in xlen_out xlen_fil
        comps filters x_up x_down x_out c =
      out_line x_out c + ∑ x_in ∈ Finset.range xlen_in,
        (if 0 ≤ tapIdx x_down x_up xlen_fil x_out x_in ∧
            tapIdx x_down x_up xlen_fil x_out x_in < (xlen_fil : ℤ) then
          in_line x_in c *
            norm_filter (tapIdx x_down x_up xlen_fil x_out x_in).toNat (c % filters)
        else 0) := by
  rw [resize_line]
  simp only [if_pos (And.intro hx hc)]
  exact resize_window_sum (fun x_in => in_line x_in c)
    (fun x_fil => norm_filter x_fil (c % filters)) xlen_in xlen_fil x_up x_down
    _ _ _ _ x_out (out_line x_out c) hu hL rfl rfl rfl rfl

/-- `filter_line` computes exactly what `resize_line` computes at
`x_up = x_down = 1`: the fast-path kernel changes no result. -/
theorem filter_line_eq_resize_line (out_line in_line norm_filter : ℕ → ℕ → ℚ)
    (xlen_in xlen_out xlen_fil comps filters : ℕ) (x_up x_down : ℤ) :
    filter_line out_line in_line norm_filter xlen_in xlen_out xlen_fil
        comps filters x_up x_down =
      resize_line out_line in_line norm_filter xlen_in xlen_out xlen_fil
        comps filters 1 1 := by
  funext x c
  rw [filter_line, resize_line]
  by_cases h : x < xlen_out ∧ c < comps
  · simp only [if_pos h]
    have e1 : ((x : ℤ) * 1) + 1 + (((xlen_fil : ℤ) - 1) / 2) =
        (x : ℤ) + 1 + (((xlen_fil : ℤ) - 1) / 2) := by ring
    have e2 : ∀ z : ℤ, z / 1 = z := fun z => Int.ediv_one z
    have e3 : ((x : ℤ) * 1) + (1 - 1) - (((xlen_fil : ℤ) - 1) - (((xlen_fil : ℤ) - 1) / 2)) =
        (x : ℤ) - (((xlen_fil : ℤ) - 1) - (((xlen_fil : ℤ) - 1) / 2)) := by ring
    rw [e1, e3, e2, e2]
    have e4 : ∀ z : ℤ, ((x : ℤ) * 1) - (z * 1) = (x : ℤ) - z := by intro z; ring
    rw [e4]
  · simp only [if_neg h]

/-- Output shape of `resize_frame`: `round(length * up / down)` computed as
`((length * up) + down // 2) // down`, clamped below at 1, for any filter. -/
theorem resize_frame_shape (in_frame norm_filter : QFrame)
    (x_up x_down y_up y_down : ℕ)
    (hxu : 1 ≤ x_up) (hxd : 1 ≤ x_down) (hyu : 1 ≤ y_up) (hyd : 1 ≤ y_down) :
    (resize_frame in_frame norm_filter x_up x_down y_up y_down).xlen =
        max ((in_frame.xlen * x_up + x_down / 2) / x_down) 1 ∧
      (resize_frame in_frame norm_filter x_up x_down y_up y_down).ylen =
        max ((in_frame.ylen * y_up + y_down / 2) / y_down) 1 ∧
      (resize_frame in_frame norm_filter x_up x_down y_up y_down).comps =
        in_frame.comps := by
  have hx : (((in_frame.xlen : ℤ) * (x_up : ℤ)) + (x_down : ℤ) / 2) / (x_down : ℤ) =
      (((in_frame.xlen * x_up + x_down / 2) / x_down : ℕ) : ℤ) := by
    rw [Int.natCast_div]
    congr 1
  have hy : (((in_frame.ylen : ℤ) * (y_up : ℤ)) + (y_down : ℤ) / 2) / (y_down : ℤ) =
      (((in_frame.ylen * y_up + y_down / 2) / y_down : ℕ) : ℤ) := by
    rw [Int.natCast_div]
    congr 1
  refine ⟨?_, ?_, ?_⟩
  · simp only [resize_frame, resize_frame_core]
    rw [hx]
    omega
  · simp only [resize_frame, resize_frame_core]
    rw [hy]
    omega
  · simp only [resize_frame, resize_frame_core]

/-- When `x_up = x_down = 1` and the filter has more than one horizontal
coefficient, `resize_frame_core` dispatches to `filter_line`, and the result
is exactly what the general `resize_line` kernel would compute. -/
theorem resize_frame_core_fastpath (out_frame in_frame norm_filter : QFrame)
    (y_up y_down : ℤ) (hL : 1 < norm_filter.xlen) :
    resize_frame_core out_frame in_frame norm_filter 1 1 y_up y_down =
      resize_frame_core_general out_frame in_frame norm_filter 1 1 y_up y_down := by
  have hcond : ((1 : ℤ) ≠ 1 ∨ (1 : ℤ) ≠ 1) = False := by simp
  have hcond2 : (norm_filter.xlen = 1) = False := by
    simp only [eq_iff_iff, iff_false]
    omega
  have hinterp : (fun out_line in_line fil_line =>
      filter_line out_line in_line fil_line in_frame.xlen out_frame.xlen
        norm_filter.xlen out_frame.comps norm_filter.comps 1 1) =
      (fun out_line in_line fil_line =>
        resize_line out_line in_line fil_line in_frame.xlen out_frame.xlen
          norm_filter.xlen out_frame.comps norm_filter.comps 1 1) := by
    funext o i f
    exact filter_line_eq_resize_line o i f _ _ _ _ _ 1 1
  simp only [resize_frame_core, resize_frame_core_general, hcond, hcond2, if_false]
  rw [hinterp]

/-- One step of the vertical loop. -/
theorem rowLoop_one (in_frame norm_filter : ℕ → ℕ → ℕ → ℚ)
    (interp : (ℕ → ℕ → ℚ) → (ℕ → ℕ → ℚ) → (ℕ → ℕ → ℚ) → (ℕ → ℕ → ℚ))
    (y_up : ℤ) (y_in : ℕ) (y_fil : ℤ) (line : ℕ → ℕ → ℚ) :
    rowLoop in_frame norm_filter interp y_up 1 y_in y_fil line =
      interp line (in_frame y_in) (norm_filter y_fil.toNat) := rfl

/-- `resize_frame` at unit scaling factors with the unit one-coefficient
filter is the identity on every nonempty frame: same shape, same samples. -/
theorem resize_frame_identity (in_frame norm_filter : QFrame)
    (hH : 1 ≤ in_frame.ylen) (hW : 1 ≤ in_frame.xlen)
    (hfy : norm_filter.ylen = 1) (hfx : norm_filter.xlen = 1)
    (hfc : norm_filter.comps = 1) (hf1 : norm_filter.data 0 0 0 = 1) :
    (resize_frame in_frame norm_filter 1 1 1 1).ylen = in_frame.ylen ∧
    (resize_frame in_frame norm_filter 1 1 1 1).xlen = in_frame.xlen ∧
    (resize_frame in_frame norm_filter 1 1 1 1).comps = in_frame.comps ∧
    ∀ y x c, y < in_frame.ylen → x < in_frame.xlen → c < in_frame.comps →
      (resize_frame in_frame norm_filter 1 1 1 1).data y x c =
        in_frame.data y x c := by
  refine ⟨?_, ?_, ?_, ?_⟩
  · simp only [resize_frame, resize_frame_core]
    omega
  · simp only [resize_frame, resize_frame_core]
    omega
  · simp only [resize_frame, resize_frame_core]
  · intro y x c hy hx hc
    simp only [resize_frame, resize_frame_core, hfy, hfx, hfc]
    norm_num
    rw [if_pos (Or.inl hy)]
    have hcnt : ((((y : ℤ) + 1) ⊓ (in_frame.ylen : ℤ)).toNat - y) = 1 := by omega
    rw [hcnt, rowLoop_one]
    rw [scale_line]
    have hxx : x < ((in_frame.xlen : ℤ) ⊔ 1).toNat ∧ c < in_frame.comps := by
      constructor
      · omega
      · exact hc
    rw [if_pos hxx]
    simp [Nat.mod_one, hf1]

/-- `resize_line` on component `c` of a multi-plane line computes exactly
the single-plane `resize_line` on the `c` slices (with filter plane
`c % filters`). -/
theorem resize_line_slice (l3 l1 in_l fil_l : ℕ → ℕ → ℚ)
    (xlen_in xlen_out xlen_fil comps filters : ℕ) (x_up x_down : ℤ)
    (c : ℕ) (hc : c < comps) (hagree : ∀ x, l3 x c = l1 x 0) (x : ℕ) :
    resize_line l3 in_l fil_l xlen_in xlen_out xlen_fil comps filters
        x_up x_down x c =
      resize_line l1 (fun x2 _ => in_l x2 c) (fun t _ => fil_l t (c % filters))
        xlen_in xlen_out xlen_fil 1 1 x_up x_down x 0 := by
  rw [resize_line, resize_line]
  by_cases hx : x < xlen_out
  · rw [if_pos ⟨hx, hc⟩, if_pos ⟨hx, by omega⟩]
    rw [hagree x]
  · rw [if_neg (by intro h; exact hx h.1), if_neg (by intro h; exact hx h.1)]
    exact hagree x

/-- `filter_line` on component `c` computes exactly the single-plane
`filter_line` on the `c` slices. -/
theorem filter_line_slice (l3 l1 in_l fil_l : ℕ → ℕ → ℚ)
    (xlen_in xlen_out xlen_fil comps filters : ℕ) (x_up x_down : ℤ)
    (c : ℕ) (hc : c < comps) (hagree : ∀ x, l3 x c = l1 x 0) (x : ℕ) :
    filter_line l3 in_l fil_l xlen_in xlen_out xlen_fil comps filters
        x_up x_down x c =
      filter_line l1 (fun x2 _ => in_l x2 c) (fun t _ => fil_l t (c % filters))
        xlen_in xlen_out xlen_fil 1 1 x_up x_down x 0 := by
  rw [filter_line, filter_line]
  by_cases hx : x < xlen_out
  · rw [if_pos ⟨hx, hc⟩, if_pos ⟨hx, by omega⟩]
    rw [hagree x]
  · rw [if_neg (by intro h; exact hx h.1), if_neg (by intro h; exact hx h.1)]
    exact hagree x

/-- `scale_line` on component `c` computes exactly the single-plane
`scale_line` on the `c` slices. -/
theorem scale_line_slice (l3 l1 in_l fil_l : ℕ → ℕ → ℚ)
    (xlen_in xlen_out xlen_fil comps filters : ℕ) (x_up x_down : ℤ)
    (c : ℕ) (hc : c < comps) (hagree : ∀ x, l3 x c = l1 x 0) (x : ℕ) :
    scale_line l3 in_l fil_l xlen_in xlen_out xlen_fil comps filters
        x_up x_down x c =
      scale_line l1 (fun x2 _ => in_l x2 c) (fun t _ => fil_l t (c % filters))
        xlen_in xlen_out xlen_fil 1 1 x_up x_down x 0 := by
  rw [scale_line, scale_line]
  by_cases hx : x < xlen_out
  · rw [if_pos ⟨hx, hc⟩, if_pos (⟨hx, Nat.zero_lt_one⟩ : x < xlen_out ∧ 0 < 1)]
    simp only [Nat.mod_one]
    by_cases hcoef : fil_l 0 (c % filters) ≠ 0
    · rw [if_pos hcoef, if_pos hcoef, hagree x]
    · rw [if_neg hcoef, if_neg hcoef]
      exact hagree x
  · rw [if_neg (by intro h; exact hx h.1), if_neg (by intro h; exact hx h.1)]
    exact hagree x

/-- The vertical loop commutes with component slicing whenever the line
kernel does. -/
theorem rowLoop_slice (in3 fil3 : ℕ → ℕ → ℕ → ℚ)
    (interp3 interp1 : (ℕ → ℕ → ℚ) → (ℕ → ℕ → ℚ) → (ℕ → ℕ → ℚ) → (ℕ → ℕ → ℚ))
    (y_up : ℤ) (c cf : ℕ)
    (H : ∀ (l3 l1 : ℕ → ℕ → ℚ) (y t : ℕ), (∀ x, l3 x c = l1 x 0) →
      ∀ x, interp3 l3 (in3 y) (fil3 t) x c =
        interp1 l1 (fun x2 _ => in3 y x2 c) (fun t2 _ => fil3 t t2 cf) x 0) :
    ∀ (n y0 : ℕ) (f0 : ℤ) (l3 l1 : ℕ → ℕ → ℚ), (∀ x, l3 x c = l1 x 0) →
      ∀ x, rowLoop in3 fil3 interp3 y_up n y0 f0 l3 x c =
        rowLoop (fun y x2 _ => in3 y x2 c) (fun t t2 _ => fil3 t t2 cf)
          interp1 y_up n y0 f0 l1 x 0 := by
  intro n
  induction n with
  | zero => intro y0 f0 l3 l1 hagree x; exact hagree x
  | succ m ih =>
      intro y0 f0 l3 l1 hagree x
      rw [rowLoop, rowLoop]
      exact ih (y0 + 1) (f0 - y_up) _ _ (H l3 l1 y0 f0.toNat hagree) x

/-- `resize_frame_core` treats component planes independently: plane `c`
of the output is the single-plane run on plane `c` of the inputs (with
filter plane `c % filters`). -/
theorem resize_frame_core_plane (out_frame in_frame norm_filter : QFrame)
    (x_up x_down y_up y_down : ℤ) (c : ℕ) (hc : c < out_frame.comps) :
    ∀ y x, (resize_frame_core out_frame in_frame norm_filter
        x_up x_down y_up y_down).data y x c =
      (resize_frame_core (plane out_frame c) (plane in_frame c)
        (plane norm_filter (c % norm_filter.comps))
        x_up x_down y_up y_down).data y x 0 := by
  intro y x
  simp only [resize_frame_core, plane]
  by_cases hy : y < out_frame.ylen
  · rw [if_pos hy, if_pos hy]
    by_cases hdis : x_up ≠ 1 ∨ x_down ≠ 1
    · rw [if_pos hdis, if_pos hdis]
      exact rowLoop_slice in_frame.data norm_filter.data _ _ y_up c
        (c % norm_filter.comps)
        (fun l3 l1 y2 t ha x2 => resize_line_slice l3 l1 (in_frame.data y2)
          (norm_filter.data t) in_frame.xlen out_frame.xlen norm_filter.xlen
          out_frame.comps norm_filter.comps x_up x_down c hc ha x2)
        _ _ _ (out_frame.data y) _ (fun _ => rfl) x
    · rw [if_neg hdis, if_neg hdis]
      by_cases hfil : norm_filter.xlen = 1
      · rw [if_pos hfil, if_pos hfil]
        exact rowLoop_slice in_frame.data norm_filter.data _ _ y_up c
          (c % norm_filter.comps)
          (fun l3 l1 y2 t ha x2 => scale_line_slice l3 l1 (in_frame.data y2)
            (norm_filter.data t) in_frame.xlen out_frame.xlen norm_filter.xlen
            out_frame.comps norm_filter.comps x_up x_down c hc ha x2)
          _ _ _ (out_frame.data y) _ (fun _ => rfl) x
      · rw [if_neg hfil, if_neg hfil]
        exact rowLoop_slice in_frame.data norm_filter.data _ _ y_up c
          (c % norm_filter.comps)
          (fun l3 l1 y2 t ha x2 => filter_line_slice l3 l1 (in_frame.data y2)
            (norm_filter.data t) in_frame.xlen out_frame.xlen norm_filter.xlen
            out_frame.comps norm_filter.comps x_up x_down c hc ha x2)
          _ _ _ (out_frame.data y) _ (fun _ => rfl) x
  · rw [if_neg hy, if_neg hy]

/-- Component planes are resampled independently and identically:
plane `c` of `resize_frame` equals the single-plane `resize_frame` of input
plane `c` with filter plane `c % filters`. -/
theorem resize_frame_plane (in_frame norm_filter : QFrame)
    (x_up x_down y_up y_down : ℤ) (c : ℕ) (hc : c < in_frame.comps) :
    (resize_frame in_frame norm_filter x_up x_down y_up y_down).ylen =
      (resize_frame (plane in_frame c) (plane norm_filter (c % norm_filter.comps))
        x_up x_down y_up y_down).ylen ∧
    (resize_frame in_frame norm_filter x_up x_down y_up y_down).xlen =
      (resize_frame (plane in_frame c) (plane norm_filter (c % norm_filter.comps))
        x_up x_down y_up y_down).xlen ∧
    ∀ y x, (resize_frame in_frame norm_filter x_up x_down y_up y_down).data y x c =
      (resize_frame (plane in_frame c) (plane norm_filter (c % norm_filter.comps))
        x_up x_down y_up y_down).data y x 0 := by
  refine ⟨rfl, rfl, ?_⟩
  intro y x
  simp only [resize_frame]
  exact resize_frame_core_plane
    { ylen := (max ((((in_frame.ylen : ℤ) * y_up) + y_down / 2) / y_down) 1).toNat,
      xlen := (max ((((in_frame.xlen : ℤ) * x_up) + x_down / 2) / x_down) 1).toNat,
      comps := in_frame.comps, data := fun _ _ _ => 0 }
    in_frame norm_filter x_up x_down y_up y_down c hc y x

/-- On the empty frame, `resize_frame` at unit factors with the unit filter
returns a 1-row output: the output shape differs from the input shape, so
the unrestricted identity claim fails at this input. -/
theorem resize_frame_identity_cex :
    (resize_frame emptyFrame unitFilter 1 1 1 1).ylen = 1 ∧ emptyFrame.ylen = 0 := by
  constructor <;> rfl

theorem resize_frame_identity_witness :
    (resize_frame c3Frame unitFilter 1 1 1 1).ylen = c3Frame.ylen ∧
    (resize_frame c3Frame unitFilter 1 1 1 1).xlen = c3Frame.xlen ∧
    (resize_frame c3Frame unitFilter 1 1 1 1).comps = c3Frame.comps ∧
    ∀ y x c, y < c3Frame.ylen → x < c3Frame.xlen → c < c3Frame.comps →
      (resize_frame c3Frame unitFilter 1 1 1 1).data y x c = c3Frame.data y x c :=
  resize_frame_identity c3Frame unitFilter (by decide) (by decide)
    (by decide) (by decide) (by decide) rfl

theorem resize_line_eq_witness :
    resize_line c1Out c1In c1Fil 3 5 3 2 1 2 1 4 1 =
      c1Out 4 1 + ∑ x_in ∈ Finset.range 3,
        (if 0 ≤ tapIdx 1 2 3 4 x_in ∧ tapIdx 1 2 3 4 x_in < (3 : ℤ) then
          c1In x_in 1 * c1Fil (tapIdx 1 2 3 4 x_in).toNat (1 % 1)
        else 0) :=
  resize_line_eq c1Out c1In c1Fil 3 5 3 2 1 2 1 4 1 (by decide) (by decide)
    (by decide) (by decide) (by decide)

theorem resize_frame_shape_witness :
    (resize_frame c2Frame unitFilter 2 3 4 5).xlen =
        max ((c2Frame.xlen * 2 + 3 / 2) / 3) 1 ∧
      (resize_frame c2Frame unitFilter 2 3 4 5).ylen =
        max ((c2Frame.ylen * 4 + 5 / 2) / 5) 1 ∧
      (resize_frame c2Frame unitFilter 2 3 4 5).comps = c2Frame.comps :=
  resize_frame_shape c2Frame unitFilter 2 3 4 5 (by decide) (by decide)
    (by decide) (by decide)

theorem resize_frame_core_fastpath_witness :
    resize_frame_core c3Frame c2Frame c5Filter 1 1 2 3 =
      resize_frame_core_general c3Frame c2Frame c5Filter 1 1 2 3 :=
  resize_frame_core_fastpath c3Frame c2Frame c5Filter 2 3 (by decide)

theorem resize_frame_plane_witness :
    (resize_frame c6Frame c6Filter 2 1 1 2).ylen =
      (resize_frame (plane c6Frame 2) (plane c6Filter (2 % c6Filter.comps))
        2 1 1 2).ylen ∧
    (resize_frame c6Frame c6Filter 2 1 1 2).xlen =
      (resize_frame (plane c6Frame 2) (plane c6Filter (2 % c6Filter.comps))
        2 1 1 2).xlen ∧
    ∀ y x, (resize_frame c6Frame c6Filter 2 1 1 2).data y x 2 =
      (resize_frame (plane c6Frame 2) (plane c6Filter (2 % c6Filter.comps))
        2 1 1 2).data y x 0 :=
  resize_frame_plane c6Frame c6Filter 2 1 1 2 2 (by decide)

end Resizecore

namespace Modulatecore

/-- `modulate_frame` returns a frame of the input's shape whose every sample
is the input sample multiplied by the cell tiled periodically in all four
dimensions.  The input frame is untouched (the kernel writes only the
freshly allocated output). -/
theorem modulate_frame_eq (in_frame : QFrame) (cell : QCell) (frame_no : ℕ)
    (hz : 1 ≤ cell.zlen) (hy : 1 ≤ cell.ylen) (hx : 1 ≤ cell.xlen)
    (hc : 1 ≤ cell.comps) :
    (modulate_frame in_frame cell frame_no).ylen = in_frame.ylen ∧
    (modulate_frame in_frame cell frame_no).xlen = in_frame.xlen ∧
    (modulate_frame in_frame cell frame_no).comps = in_frame.comps ∧
    ∀ y x c, y < in_frame.ylen → x < in_frame.xlen → c < in_frame.comps →
      (modulate_frame in_frame cell frame_no).data y x c =
        in_frame.data y x c *
          cell.data (frame_no % cell.zlen) (y % cell.ylen) (x % cell.xlen)
            (c % cell.comps) := by
  refine ⟨rfl, rfl, rfl, ?_⟩
  intro y x c hyy hxx hcc
  simp only [modulate_frame, modulate_frame_c]
  rw [if_pos ⟨hyy, hxx, hcc⟩]

theorem modulate_frame_eq_witness :
    (modulate_frame c8Frame c8Cell 5).ylen = c8Frame.ylen ∧
    (modulate_frame c8Frame c8Cell 5).xlen = c8Frame.xlen ∧
    (modulate_frame c8Frame c8Cell 5).comps = c8Frame.comps ∧
    ∀ y x c, y < c8Frame.ylen → x < c8Frame.xlen → c < c8Frame.comps →
      (modulate_frame c8Frame c8Cell 5).data y x c =
        c8Frame.data y x c *
          c8Cell.data (5 % c8Cell.zlen) (y % c8Cell.ylen) (x % c8Cell.xlen)
            (c % c8Cell.comps) :=
  modulate_frame_eq c8Frame c8Cell 5 (by decide) (by decide) (by decide)
    (by decide)

end Modulatecore

namespace Zone

theorem qfmod_bounds (a b : ℚ) (hb : 0 < b) :
    0 ≤ qfmod a b ∧ qfmod a b < b := by
  have hfr : qfmod a b = b * Int.fract (a / b) := by
    rw [qfmod, Int.fract]
    field_simp
  constructor
  · rw [hfr]
    exact mul_nonneg (le_of_lt hb) (Int.fract_nonneg _)
  · rw [hfr]
    calc b * Int.fract (a / b) < b * 1 :=
          (mul_lt_mul_left hb).mpr (Int.fract_lt_one _)
    _ = b := mul_one b

theorem vIter_inv (kxy kyx ky2 phases : ℚ) (hkxy : 0 ≤ kxy) (hkyx : 0 ≤ kyx)
    (hky2 : 0 ≤ ky2) (hp : 0 < phases) :
    ∀ (n : ℕ) (s : ℚ × ℚ × ℚ), VInv phases s →
      VInv phases (vIter kxy kyx ky2 phases n s) := by
  intro n
  induction n with
  | zero => intro s hs; exact hs
  | succ m ih =>
      intro s hs
      rw [vIter]
      apply ih
      obtain ⟨q1, q2⟩ := qfmod_bounds (s.1 + s.2.1) phases hp
      refine ⟨q1, q2, ?_, ?_⟩
      · show 0 ≤ s.2.1 + ky2
        have h1 := hs.2.2.1
        linarith
      · show 0 ≤ s.2.2 + kxy + kyx
        have h1 := hs.2.2.2
        linarith

theorem hIter_inv (kx2 phases : ℚ) (hkx2 : 0 ≤ kx2) (hp : 0 < phases) :
    ∀ (n : ℕ) (s : ℚ × ℚ), HInv phases s →
      HInv phases (hIter kx2 phases n s) := by
  intro n
  induction n with
  | zero => intro s hs; exact hs
  | succ m ih =>
      intro s hs
      rw [hIter]
      apply ih
      obtain ⟨q1, q2⟩ := qfmod_bounds (s.1 + s.2) phases hp
      refine ⟨q1, q2, ?_⟩
      show 0 ≤ s.2 + kx2
      have h1 := hs.2.2
      linarith

/-- With `0 ≤ Iktdt_k0 < len(waveform)` and nonnegative rate parameters,
every waveform read of `zone_frame` uses an index in
`[0, len(waveform))`, and every output sample is a waveform element. -/
theorem zone_frame_safe (ylen xlen phases0 : ℕ) (waveform : ℕ → ℚ)
    (kx2 kxy kyx ky2 Iktdt_k0 Ikytdt_ky Ikxtdt_kx : ℚ)
    (h0 : 0 ≤ Iktdt_k0) (h1 : Iktdt_k0 < (phases0 : ℚ))
    (hkx2 : 0 ≤ kx2) (hkxy : 0 ≤ kxy) (hkyx : 0 ≤ kyx) (hky2 : 0 ≤ ky2)
    (hIky : 0 ≤ Ikytdt_ky) (hIkx : 0 ≤ Ikxtdt_kx)
    (y x : ℕ) (hy : y < ylen) (hx : x < xlen) :
    0 ≤ c_int (zoneAcc kx2 kxy kyx ky2 (phases0 : ℚ)
        Iktdt_k0 Ikytdt_ky Ikxtdt_kx y x) ∧
    (c_int (zoneAcc kx2 kxy kyx ky2 (phases0 : ℚ)
        Iktdt_k0 Ikytdt_ky Ikxtdt_kx y x)).toNat < phases0 ∧
    zone_frame ylen xlen waveform phases0
        kx2 kxy kyx ky2 Iktdt_k0 Ikytdt_ky Ikxtdt_kx y x =
      waveform (c_int (zoneAcc kx2 kxy kyx ky2 (phases0 : ℚ)
        Iktdt_k0 Ikytdt_ky Ikxtdt_kx y x)).toNat := by
  have hp : (0 : ℚ) < (phases0 : ℚ) := lt_of_le_of_lt h0 h1
  have hv := vIter_inv kxy kyx ky2 (phases0 : ℚ) hkxy hkyx hky2 hp y
    (Iktdt_k0, Ikytdt_ky, Ikxtdt_kx) ⟨h0, h1, hIky, hIkx⟩
  have hh := hIter_inv kx2 (phases0 : ℚ) hkx2 hp x
    ((vIter kxy kyx ky2 (phases0 : ℚ) y (Iktdt_k0, Ikytdt_ky, Ikxtdt_kx)).1,
     (vIter kxy kyx ky2 (phases0 : ℚ) y (Iktdt_k0, Ikytdt_ky, Ikxtdt_kx)).2.2)
    ⟨hv.1, hv.2.1, hv.2.2.2⟩
  have hacc : 0 ≤ zoneAcc kx2 kxy kyx ky2 (phases0 : ℚ)
        Iktdt_k0 Ikytdt_ky Ikxtdt_kx y x ∧
      zoneAcc kx2 kxy kyx ky2 (phases0 : ℚ)
        Iktdt_k0 Ikytdt_ky Ikxtdt_kx y x < (phases0 : ℚ) :=
    ⟨hh.1, hh.2.1⟩
  have hci : c_int (zoneAcc kx2 kxy kyx ky2 (phases0 : ℚ)
      Iktdt_k0 Ikytdt_ky Ikxtdt_kx y x) =
      ⌊zoneAcc kx2 kxy kyx ky2 (phases0 : ℚ)
        Iktdt_k0 Ikytdt_ky Ikxtdt_kx y x⌋ := by
    rw [c_int, if_pos hacc.1]
  refine ⟨?_, ?_, ?_⟩
  · rw [hci]
    exact Int.floor_nonneg.mpr hacc.1
  · rw [hci]
    have hlt : ⌊zoneAcc kx2 kxy kyx ky2 (phases0 : ℚ)
        Iktdt_k0 Ikytdt_ky Ikxtdt_kx y x⌋ < (phases0 : ℤ) :=
      Int.floor_lt.mpr (by exact_mod_cast hacc.2)
    have hnn : (0 : ℤ) ≤ ⌊zoneAcc kx2 kxy kyx ky2 (phases0 : ℚ)
        Iktdt_k0 Ikytdt_ky Ikxtdt_kx y x⌋ :=
      Int.floor_nonneg.mpr hacc.1
    omega
  · rw [zone_frame, if_pos ⟨hy, hx⟩]

theorem zone_frame_safe_witness :
    0 ≤ c_int (zoneAcc (1/2) 0 (1/2) (1/3) ((4 : ℕ) : ℚ) 1 (1/2) (1/4) 1 1) ∧
    (c_int (zoneAcc (1/2) 0 (1/2) (1/3) ((4 : ℕ) : ℚ) 1 (1/2) (1/4) 1 1)).toNat < 4 ∧
    zone_frame 2 2 (fun n => (n : ℚ)) 4 (1/2) 0 (1/2) (1/3) 1 (1/2) (1/4) 1 1 =
      (fun n => (n : ℚ))
        (c_int (zoneAcc (1/2) 0 (1/2) (1/3) ((4 : ℕ) : ℚ) 1 (1/2) (1/4) 1 1)).toNat :=
  zone_frame_safe 2 2 4 (fun n => (n : ℚ)) (1/2) 0 (1/2) (1/3) 1 (1/2) (1/4)
    (by norm_num) (by norm_num) (by norm_num) (by norm_num) (by norm_num)
    (by norm_num) (by norm_num) (by norm_num) 1 1 (by norm_num) (by norm_num)

end Zone

namespace Interp

end Interp

namespace Runtime

/-- Backpressure: with `N` pending Frames on a Connection of capacity `N`,
the next `send` does not complete; after one `receive` it does, and the
queue then holds exactly the previously pending Frames minus the oldest,
followed by the new one — no Frame dropped or reordered. -/
theorem connection_backpressure {A : Type} (c : Connection A) (f : A)
    (hfull : c.queue.length = c.capacity) (hpos : 1 ≤ c.capacity) :
    send c f = none ∧
    ∃ g c', receive c = some (g, c') ∧
      c.queue = g :: c'.queue ∧
      send c' f = some ⟨c.capacity, c'.queue ++ [f]⟩ := by
  refine ⟨?_, ?_⟩
  · rw [send, if_neg (by omega)]
  · cases hq : c.queue with
    | nil =>
        rw [hq] at hfull
        simp at hfull
        omega
    | cons g rest =>
        have hlen : rest.length + 1 = c.capacity := by
          have h2 := congrArg List.length hq
          simp at h2
          omega
        refine ⟨g, ⟨c.capacity, rest⟩, ?_, ?_, ?_⟩
        · rw [receive, hq]
        · rfl
        · rw [send, if_pos (by simp; omega)]

theorem connection_backpressure_witness :
    send (Connection.mk 2 [10, 20]) 30 = none ∧
    ∃ g c', receive (Connection.mk 2 [10, 20]) = some (g, c') ∧
      (Connection.mk 2 [10, 20] : Connection ℕ).queue = g :: c'.queue ∧
      send c' 30 = some ⟨2, c'.queue ++ [30]⟩ :=
  connection_backpressure (Connection.mk 2 [10, 20]) 30 (by decide) (by decide)

end Runtime

namespace Gammacorrection

theorem searchUp_spec (in_val : ℕ → ℚ) (points : ℕ) (v : ℚ) (i : ℕ)
    (hi : i ≤ points - 2) :
    i ≤ searchUp in_val points v i ∧
    searchUp in_val points v i ≤ points - 2 ∧
    (searchUp in_val points v i = points - 2 ∨
      v ≤ in_val (searchUp in_val points v i + 1)) := by
  rw [searchUp]
  split
  case isTrue h =>
    have ih := searchUp_spec in_val points v (i + 1) (by omega)
    exact ⟨by omega, ih.2.1, ih.2.2⟩
  case isFalse h =>
    rcases not_and_or.mp h with h2 | h2
    · exact ⟨le_refl i, hi, Or.inl (by omega)⟩
    · exact ⟨le_refl i, hi, Or.inr (not_lt.mp h2)⟩
termination_by points - i
decreasing_by omega

theorem searchDown_spec (in_val : ℕ → ℚ) (v : ℚ) :
    ∀ j, searchDown in_val v j ≤ j ∧
      (searchDown in_val v j = 0 ∨ in_val (searchDown in_val v j) ≤ v) ∧
      (searchDown in_val v j < j → v < in_val (searchDown in_val v j + 1)) := by
  intro j
  induction j with
  | zero => exact ⟨le_refl 0, Or.inl rfl, by omega⟩
  | succ m ih =>
      rw [searchDown]
      split
      case isTrue h =>
        refine ⟨by omega, ih.2.1, ?_⟩
        intro hlt
        rcases Nat.lt_or_ge (searchDown in_val v m) m with h2 | h2
        · exact ih.2.2 h2
        · have he : searchDown in_val v m = m := le_antisymm ih.1 h2
          rw [he]
          exact h
      case isFalse h =>
        exact ⟨le_refl _, Or.inr (not_lt.mp h), by omega⟩

/-- The index found by the two searches is a valid bracket: in range, with
`in_val` below `v` on its left knot (unless clamped at 0) and above `v` on
its right knot (unless clamped at `points - 2`). -/
theorem bracket_spec (in_val : ℕ → ℚ) (points : ℕ) (v : ℚ) (i : ℕ)
    (hi : i ≤ points - 2) :
    bracket in_val points v i ≤ points - 2 ∧
    (in_val (bracket in_val points v i) ≤ v ∨ bracket in_val points v i = 0) ∧
    (v ≤ in_val (bracket in_val points v i + 1) ∨
      bracket in_val points v i = points - 2) := by
  have hu := searchUp_spec in_val points v i hi
  have hd := searchDown_spec in_val v (searchUp in_val points v i)
  rw [bracket]
  refine ⟨le_trans hd.1 hu.2.1, ?_, ?_⟩
  · rcases hd.2.1 with h | h
    · exact Or.inr h
    · exact Or.inl h
  · rcases Nat.lt_or_ge (searchDown in_val v (searchUp in_val points v i))
        (searchUp in_val points v i) with h2 | h2
    · exact Or.inl (le_of_lt (hd.2.2 h2))
    · have he : searchDown in_val v (searchUp in_val points v i) =
          searchUp in_val points v i := le_antisymm hd.1 h2
      rw [he]
      rcases hu.2.2 with h3 | h3
      · exact Or.inr h3
      · exact Or.inl h3

/-- Two valid bracket indices (lower one strictly smaller) interpolate `v`
to the same value: they can only differ when `v` sits exactly on a shared
knot, where both sides evaluate to that knot's output value. -/
theorem interpolate_lt (in_val out_val : ℕ → ℚ) (points : ℕ) (v : ℚ)
    (hmono : ∀ a b, a < b → b < points → in_val a < in_val b)
    (j j' : ℕ) (hlt : j < j') (hj1 : j ≤ points - 2)
    (hj3 : v ≤ in_val (j + 1) ∨ j = points - 2)
    (hj'1 : j' ≤ points - 2) (hj'2 : in_val j' ≤ v ∨ j' = 0) :
    interpolate in_val out_val j v = interpolate in_val out_val j' v := by
  have hj'0 : j' ≠ 0 := by omega
  have hlo : in_val j' ≤ v := hj'2.resolve_right hj'0
  have hjne : j ≠ points - 2 := by omega
  have hhi : v ≤ in_val (j + 1) := hj3.resolve_right hjne
  have hadj : j' = j + 1 := by
    by_contra hne
    have hstep : j + 1 < j' := by omega
    have hmid : in_val (j + 1) < in_val j' := hmono _ _ hstep (by omega)
    linarith
  subst hadj
  have hv : v = in_val (j + 1) := le_antisymm hhi hlo
  have hd1 : in_val j < in_val (j + 1) := hmono j (j + 1) (by omega) (by omega)
  have hd2 : in_val (j + 1) < in_val (j + 1 + 1) :=
    hmono (j + 1) (j + 1 + 1) (by omega) (by omega)
  simp only [interpolate]
  rw [if_neg (by intro h; linarith : ¬(in_val (j + 1) - in_val j = 0))]
  rw [if_neg (by intro h; linarith : ¬(in_val (j + 1 + 1) - in_val (j + 1) = 0))]
  rw [hv]
  have hne : in_val (j + 1) - in_val j ≠ 0 := by intro h; linarith
  rw [sub_self, mul_zero, zero_div, add_zero, mul_div_assoc, div_self hne,
    mul_one]
  ring

/-- Any two valid bracket indices interpolate `v` to the same value. -/
theorem interpolate_bracket_eq (in_val out_val : ℕ → ℚ) (points : ℕ) (v : ℚ)
    (hmono : ∀ a b, a < b → b < points → in_val a < in_val b)
    (j j' : ℕ) (hj1 : j ≤ points - 2) (hj2 : in_val j ≤ v ∨ j = 0)
    (hj3 : v ≤ in_val (j + 1) ∨ j = points - 2)
    (hj'1 : j' ≤ points - 2) (hj'2 : in_val j' ≤ v ∨ j' = 0)
    (hj'3 : v ≤ in_val (j' + 1) ∨ j' = points - 2) :
    interpolate in_val out_val j v = interpolate in_val out_val j' v := by
  rcases lt_trichotomy j j' with h | h | h
  · exact interpolate_lt in_val out_val points v hmono j j' h hj1 hj3 hj'1 hj'2
  · rw [h]
  · exact (interpolate_lt in_val out_val points v hmono j' j h hj'1 hj'3
      hj1 hj2).symm

/-- Samples not visited by the row loop are left unchanged. -/
theorem rowApply_notmem (in_row : ℕ → ℕ → ℚ) (in_val out_val : ℕ → ℚ)
    (points : ℕ) :
    ∀ (l : List (ℕ × ℕ)) (i : ℕ) (f : ℕ → ℕ → ℚ) (x c : ℕ), (c, x) ∉ l →
      rowApply in_row in_val out_val points l i f x c = f x c := by
  intro l
  induction l with
  | nil => intro i f x c _; rfl
  | cons p rest ih =>
      intro i f x c hmem
      obtain ⟨c0, x0⟩ := p
      rw [rowApply]
      have hrest : (c, x) ∉ rest := fun hc2 => hmem (List.mem_cons_of_mem _ hc2)
      rw [ih _ _ _ _ hrest]
      have hne : ¬(x = x0 ∧ c = c0) := by
        intro hcon
        apply hmem
        rw [hcon.1, hcon.2]
        exact List.mem_cons_self _ _
      rw [if_neg hne]

/-- Each visited sample is mapped to the interpolation at the bracket found
from index 0 — the carried search index does not influence the value. -/
theorem rowApply_mem (in_row : ℕ → ℕ → ℚ) (in_val out_val : ℕ → ℚ)
    (points : ℕ) (hpts : 2 ≤ points)
    (hmono : ∀ a b, a < b → b < points → in_val a < in_val b) :
    ∀ (l : List (ℕ × ℕ)) (i : ℕ) (f : ℕ → ℕ → ℚ) (x c : ℕ),
      l.Nodup → (c, x) ∈ l → i ≤ points - 2 →
      rowApply in_row in_val out_val points l i f x c =
        interpolate in_val out_val
          (bracket in_val points (in_row x c) 0) (in_row x c) := by
  intro l
  induction l with
  | nil => intro i f x c _ hmem _; cases hmem
  | cons p rest ih =>
      intro i f x c hnd hmem hi
      obtain ⟨c0, x0⟩ := p
      rw [rowApply]
      by_cases hkey : c = c0 ∧ x = x0
      · obtain ⟨hc0, hx0⟩ := hkey
        subst hc0
        subst hx0
        have hrest : (c, x) ∉ rest := (List.nodup_cons.mp hnd).1
        rw [rowApply_notmem _ _ _ _ _ _ _ _ _ hrest]
        rw [if_pos ⟨rfl, rfl⟩]
        have hb1 := bracket_spec in_val points (in_row x c) i hi
        have hb0 := bracket_spec in_val points (in_row x c) 0 (by omega)
        exact interpolate_bracket_eq in_val out_val points (in_row x c) hmono
          _ _ hb1.1 hb1.2.1 hb1.2.2 hb0.1 hb0.2.1 hb0.2.2
      · have hmem' : (c, x) ∈ rest := by
          rcases List.mem_cons.mp hmem with h | h
          · exfalso
            apply hkey
            exact ⟨congrArg Prod.fst h, congrArg Prod.snd h⟩
          · exact h
        exact ih _ _ _ _ (List.nodup_cons.mp hnd).2 hmem'
          (bracket_spec in_val points (in_row x0 c0) i hi).1

/-- `apply_transfer_function` maps each in-range sample `v` of the frame to
`out_val[i] + (out_val[i+1] - out_val[i]) * (v - in_val[i]) /
(in_val[i+1] - in_val[i])` for any valid bracket index `i` (clamped at the
ends), independently of the sample's position in the frame. -/
theorem apply_transfer_function_eq (frame : QFrame) (in_val out_val : ℕ → ℚ)
    (points : ℕ) (hpts : 2 ≤ points)
    (hmono : ∀ a b, a < b → b < points → in_val a < in_val b)
    (y x c : ℕ) (hy : y < frame.ylen) (hx : x < frame.xlen)
    (hc : c < frame.comps) (i_spec : ℕ) (h1 : i_spec ≤ points - 2)
    (h2 : in_val i_spec ≤ frame.data y x c ∨ i_spec = 0)
    (h3 : frame.data y x c ≤ in_val (i_spec + 1) ∨ i_spec = points - 2) :
    (apply_transfer_function frame in_val out_val points).data y x c =
      out_val i_spec + (out_val (i_spec + 1) - out_val i_spec) *
        (frame.data y x c - in_val i_spec) /
        (in_val (i_spec + 1) - in_val i_spec) := by
  simp only [apply_transfer_function]
  rw [if_pos hy]
  have hnd : ((List.range frame.comps).flatMap (fun c2 =>
      (List.range frame.xlen).map (fun x2 => (c2, x2)))).Nodup :=
    (List.nodup_range frame.comps).product (List.nodup_range frame.xlen)
  have hmem : (c, x) ∈ (List.range frame.comps).flatMap (fun c2 =>
      (List.range frame.xlen).map (fun x2 => (c2, x2))) := by
    have : (c, x) ∈ (List.range frame.comps).product (List.range frame.xlen) := by
      rw [List.pair_mem_product, List.mem_range, List.mem_range]
      exact ⟨hc, hx⟩
    exact this
  rw [rowApply_mem (frame.data y) in_val out_val points hpts hmono _ _ _ _ _
    hnd hmem (by omega)]
  have hb0 := bracket_spec in_val points (frame.data y x c) 0 (by omega)
  rw [interpolate_bracket_eq in_val out_val points (frame.data y x c) hmono
    _ i_spec hb0.1 hb0.2.1 hb0.2.2 h1 h2 h3]
  have hd : in_val i_spec < in_val (i_spec + 1) :=
    hmono i_spec (i_spec + 1) (by omega) (by omega)
  simp only [interpolate]
  rw [if_neg (by intro h; linarith : ¬(in_val (i_spec + 1) - in_val i_spec = 0))]

theorem apply_transfer_function_eq_witness :
    (apply_transfer_function c10Frame (fun i => (i : ℚ)) (fun i => 2 * (i : ℚ)) 3).data 0 0 0 =
      2 * ((1 : ℕ) : ℚ) + (2 * ((1 + 1 : ℕ) : ℚ) - 2 * ((1 : ℕ) : ℚ)) *
        (c10Frame.data 0 0 0 - ((1 : ℕ) : ℚ)) /
        (((1 + 1 : ℕ) : ℚ) - ((1 : ℕ) : ℚ)) :=
  apply_transfer_function_eq c10Frame (fun i => (i : ℚ)) (fun i => 2 * (i : ℚ))
    3 (by norm_num) (fun a b hab _ => by
      show ((a : ℕ) : ℚ) < ((b : ℕ) : ℚ)
      exact_mod_cast hab)
    0 0 0 (by decide) (by decide) (by decide) 1 (by norm_num)
    (Or.inl (by norm_num [c10Frame])) (Or.inl (by norm_num [c10Frame]))

end Gammacorrection

end Pyctools
